import Mathlib

/-!
Verification of the mobiletto indexeddb storage driver (`src/index.ts`,
class `StorageClient`).  The driver emulates a hierarchical filesystem on
top of a flat key-value store (IndexedDB object store `rootStore`).

The shallow embedding below models:
* stored records (`MRecord`, the objects written by `StorageClient.write`),
* listing entries (`MEntry`, either a stored record or a synthesized
  directory object `{ type: M_DIR, name }`),
* the namespace resolver `StorageClient._list` (sort by name, map each
  record to an entry, drop nulls, de-duplicate by name, exact-match
  short-circuit, visitor invocation),
* the write aggregator's pull-style chunk loop,
* `StorageClient.read` (including its stalling behavior on an empty
  payload), and
* `StorageClient.remove` (the fused list-and-delete visitor).

Strings are modelled with Lean `String` and the JavaScript string
operations (`startsWith`, `endsWith`, `indexOf` with a start index,
`substring(0, j)`, `length`) are defined over `String.data`.  The
`localeCompare` comparator used by the sort is an external, locale
dependent function; it is modelled as an explicit comparator parameter
`le : String → String → Bool` (meaning `localeCompare ≤ 0`), and a
concrete computable comparator `demoLe` (code-point lexicographic order)
is supplied for witnesses and counterexamples.
-/

namespace Mobiletto

/-- JS `name.startsWith(p)`: `p.data` is a prefix of `name.data`. -/
def strStartsWith (s p : String) : Bool :=
  p.data.isPrefixOf s.data

/-- JS `s.endsWith("/")`: the last character of `s` is `'/'`. -/
def strEndsSlash (s : String) : Bool :=
  s.data.getLast? == some '/'

/-- JS `s.length` (character count; path separators are single units). -/
def strLen (s : String) : Nat :=
  s.data.length

/-- Helper for `strIndexOfFrom`: first index (counting from `pos`) at
which `c` occurs in `l`. -/
def charIndexOfAux (c : Char) : List Char → Nat → Option Nat
  | [], _ => none
  | a :: as, pos => if a = c then some pos else charIndexOfAux c as (pos + 1)

/-- JS `s.indexOf(c, i)`: index of the first occurrence of `c` at
position `≥ i`, `none` when there is no such occurrence (JS `-1`). -/
def strIndexOfFrom (s : String) (c : Char) (i : Nat) : Option Nat :=
  charIndexOfAux c (s.data.drop i) i

/-- JS `s.substring(0, j)`: the first `j` characters (end exclusive). -/
def strTake (s : String) (j : Nat) : String :=
  ⟨s.data.take j⟩

/-- The `M_FILE` and `M_DIR` kind constants from mobiletto-common. -/
inductive MType where
  | file
  | dir
deriving DecidableEq, Repr

/-- A stored record, as written by `StorageClient.write`:
`{ name: path, type: M_FILE, bytes, size: bytes.length, mtime }`.
Payloads are numeric byte arrays (`bytes.push(...chunk)` over Buffers). -/
structure MRecord where
  name : String
  type : MType
  bytes : List Nat
  size : Nat
  mtime : Nat
deriving DecidableEq, Repr

/-- An entry produced by `_list`: either a stored record (returned
as-is) or a synthesized directory object `{ type: M_DIR, name }`. -/
inductive MEntry where
  | file (r : MRecord)
  | dir (name : String)
deriving DecidableEq, Repr

/-- The `name` field of a listing entry. -/
def MEntry.name : MEntry → String
  | .file r => r.name
  | .dir n => n

/-- The `type` field of a listing entry. -/
def MEntry.type : MEntry → MType
  | .file r => r.type
  | .dir _ => MType.dir

/-- The normalized prefix used by `_list` in the non-recursive branch:
`pth === "" ? "" : pth.endsWith("/") ? pth : pth + "/"`. -/
def normMatchOf (pth : String) : String :=
  if pth = "" then "" else if strEndsSlash pth then pth else pth ++ "/"

/-- The body of the `.map((o) => ...)` callback of `_list` for one
record (`src/index.ts`, lines 474-494), with `null` as `none`:
exact name match returns the record; otherwise a prefix match returns
the record when recursive; otherwise, when the name extends strictly
beyond the normalized prefix, either the record (no further separator
at index `≥ normMatch.length + 1`) or a synthesized directory object
named `o.name.substring(0, nextSlash)`. -/
def mapEntry (pth : String) (recursive : Bool) (o : MRecord) : Option MEntry :=
  if o.name = pth then some (MEntry.file o)
  else if strStartsWith o.name pth then
    if recursive then some (MEntry.file o)
    else
      if strStartsWith o.name (normMatchOf pth) &&
          decide (strLen (normMatchOf pth) < strLen o.name) then
        match strIndexOfFrom o.name '/' (strLen (normMatchOf pth) + 1) with
        | none => some (MEntry.file o)
        | some nextSlash => some (MEntry.dir (strTake o.name nextSlash))
      else none
  else none

/-- The `.sort((o1, o2) => o1.name.localeCompare(o2.name))` step, with
the `localeCompare`-induced order passed in as `le` (`le a b` meaning
`a.localeCompare(b) <= 0`).  ECMAScript `Array.prototype.sort` is a
stable sort; it is modelled here by insertion sort, which is stable. -/
def sortByName (le : String → String → Bool) (records : List MRecord) : List MRecord :=
  List.insertionSort (fun a b => le a.name b.name = true) records

/-- The de-duplication step
`.filter((value, index, self) => index === self.findIndex((t) => t.name === value.name))`:
keep an entry iff no earlier entry has the same name. -/
def dedupByNameAux (seen : List String) : List MEntry → List MEntry
  | [] => []
  | e :: rest =>
    if e.name ∈ seen then dedupByNameAux seen rest
    else e :: dedupByNameAux (e.name :: seen) rest

/-- De-duplicate entries by `name`, keeping the first occurrence. -/
def dedupByName (l : List MEntry) : List MEntry :=
  dedupByNameAux [] l

/-- The `foundExact` variable of `_list`: the mapping pass assigns
`foundExact = o` for every record with `o.name === pth`, so its final
value is the last such record in the sorted array. -/
def listFoundExact (le : String → String → Bool) (st : List MRecord) (pth : String) :
    Option MRecord :=
  ((sortByName le st).filter (fun o => o.name == pth)).getLast?

/-- The `filtered` array of `_list`: sort, map, drop nulls, de-dup. -/
def listFiltered (le : String → String → Bool) (st : List MRecord) (pth : String)
    (recursive : Bool) : List MEntry :=
  dedupByName ((sortByName le st).filterMap (mapEntry pth recursive))

/-- The value `_list` resolves with: `[foundExact]` when an exact match
was found and `recursive` is false, otherwise `filtered`. -/
def listResult (le : String → String → Bool) (st : List MRecord) (pth : String)
    (recursive : Bool) : List MEntry :=
  match listFoundExact le st pth, recursive with
  | some o, false => [MEntry.file o]
  | some _, true => listFiltered le st pth recursive
  | none, _ => listFiltered le st pth recursive

/-- The sequence of arguments passed to a supplied visitor by `_list`:
the exact match alone in the short-circuit branch, otherwise every
entry of `filtered` whose `type` is `M_FILE`, in order. -/
def listVisits (le : String → String → Bool) (st : List MRecord) (pth : String)
    (recursive : Bool) : List MEntry :=
  match listFoundExact le st pth, recursive with
  | some o, false => [MEntry.file o]
  | some _, true => (listFiltered le st pth recursive).filter (fun e => e.type == MType.file)
  | none, _ => (listFiltered le st pth recursive).filter (fun e => e.type == MType.file)

/-- The pull-style aggregation loop of `StorageClient.write`
(`src/index.ts`, lines 570-582).  A yield is `none` when the generator
produced a falsy value (`undefined`/`null`; note that an *empty* Buffer
is truthy in JavaScript and is modelled as `some []`).  After the yield
list is exhausted a JavaScript generator keeps yielding `undefined`,
which only increments `nullCount` and never changes `acc`, so the model
returns `acc` there.  `nullCount` starts at 0 and is never reset; the
loop condition is `chunk || nullCount < 5`, checked on the freshly
pulled chunk. -/
def aggregate : List (Option (List Nat)) → List Nat → Nat → List Nat
  | [], acc, _ => acc
  | some c :: rest, acc, nullCount => aggregate rest (acc ++ c) nullCount
  | none :: rest, acc, nullCount =>
    if nullCount < 5 then aggregate rest acc (nullCount + 1) else acc

/-- The buffer accumulated by `write` for a pull-style source. -/
def writeBytes (ys : List (Option (List Nat))) : List Nat :=
  aggregate ys [] 0

/-- Count of empty/absent yields in a yield sequence. -/
def noneCount : List (Option (List Nat)) → Nat
  | [] => 0
  | none :: rest => noneCount rest + 1
  | some _ :: rest => noneCount rest

/-- Concatenation of the non-empty chunks of a yield sequence, in pull
order. -/
def chunksFlat : List (Option (List Nat)) → List Nat
  | [] => []
  | none :: rest => chunksFlat rest
  | some c :: rest => c ++ chunksFlat rest

/-- IndexedDB `objectStore.put(writeObject, path)`: replace any record
stored under the key and store the new one. -/
def putRecord (st : List MRecord) (r : MRecord) : List MRecord :=
  st.filter (fun x => x.name != r.name) ++ [r]

/-- IndexedDB `objectStore.get(path)`: the record stored under the key,
if any (`undefined` is `none`). -/
def getRecord (st : List MRecord) (path : String) : Option MRecord :=
  st.find? (fun x => x.name == path)

/-- IndexedDB `objectStore.delete(path)`. -/
def delRecord (st : List MRecord) (path : String) : List MRecord :=
  st.filter (fun x => x.name != path)

/-- Model of `StorageClient.write(path, source)` for a pull-style source: the
new store state and the resolved byte count.  The stored object is
`{ name: path, type: M_FILE, bytes, size: bytes.length, mtime: Date.now() }`
(`now` stands for `Date.now()`). -/
def writeModel (st : List MRecord) (path : String) (ys : List (Option (List Nat)))
    (now : Nat) : List MRecord × Nat :=
  let bytes := writeBytes ys
  (putRecord st ⟨path, MType.file, bytes, bytes.length, now⟩, bytes.length)

/-- How a `read` settles. -/
inductive ReadResult where
  | success (bytes : List Nat) (count : Nat)
  | notFound (path : String)
  | stall
deriving DecidableEq, Repr

/-- Model of `StorageClient.read(path, callback)` (`src/index.ts`, lines
611-652): an absent result rejects with `MobilettoNotFoundError`; a
record with a non-empty payload is decoded (a numeric byte array
decodes to itself via `Buffer.from`), delivered, and the transaction
completion resolves with the byte count; a record with an empty
payload sets neither `bytesRead` nor `notFound`, so the promise never
settles (modelled as `stall`). -/
def readModel (st : List MRecord) (path : String) : ReadResult :=
  match getRecord st path with
  | none => ReadResult.notFound path
  | some r =>
    if 0 < r.bytes.length then ReadResult.success r.bytes r.bytes.length
    else ReadResult.stall

/-- The chunks delivered to `read`'s `callback`, in order: the whole
decoded buffer once on the non-empty path, nothing otherwise. -/
def readChunks (st : List MRecord) (path : String) : List (List Nat) :=
  match getRecord st path with
  | none => []
  | some r => if 0 < r.bytes.length then [r.bytes] else []

/-- Errors recorded by `remove`'s `deleteVisitor`. -/
inductive RemoveErr where
  | notAFile (path : String)
  | notFound (path : String)
deriving DecidableEq, Repr

/-- One run of `deleteVisitor` (`src/index.ts`, lines 663-731) on the
triple (current store, `deleteErrors`, `deletedFiles`):
a non-FILE entry records a `not a file` error unless `quiet` (the code
does not return there, so the transaction still runs); the transaction
re-fetches by key, records `MobilettoNotFoundError` when absent
(swallowed under `quiet`), and otherwise deletes the key and appends
the path to `deletedFiles`. -/
def deleteVisitorStep (quiet : Bool)
    (acc : List MRecord × List RemoveErr × List String) (e : MEntry) :
    List MRecord × List RemoveErr × List String :=
  match acc with
  | (st, errs, deleted) =>
    let errs1 := if e.type != MType.file && !quiet then errs ++ [RemoveErr.notAFile e.name] else errs
    match getRecord st e.name with
    | none =>
      (st, if quiet then errs1 else errs1 ++ [RemoveErr.notFound e.name], deleted)
    | some _ =>
      (delRecord st e.name, errs1, deleted ++ [e.name])

/-- How `remove` settles. -/
inductive RemoveOutcome where
  | failureNotFound (path : String)
  | failureFirst (err : RemoveErr)
  | successEmpty
  | successSingle (path : String)
  | successMany (paths : List String)
deriving DecidableEq, Repr

/-- Model of `StorageClient.remove(path, recursive, quiet)` (`src/index.ts`,
lines 654-744): run `_list` with `deleteVisitor` as the visitor (every
visited FILE entry is deleted as it is visited), then: zero matched
entries fail with `MobilettoNotFoundError(path)` unless `quiet` (which
returns the empty result `[]`); otherwise, with no recorded delete
errors, the result is `[]`, the single deleted path, or the list of
deleted paths; otherwise the first recorded error.  Returns the
outcome together with the store state after the visits. -/
def removeModel (le : String → String → Bool) (st : List MRecord) (path : String)
    (recursive quiet : Bool) : RemoveOutcome × List MRecord :=
  let entries := listResult le st path recursive
  let visits := listVisits le st path recursive
  match visits.foldl (deleteVisitorStep quiet) (st, [], []) with
  | (st1, errs, deleted) =>
    if entries.length = 0 then
      (if quiet then RemoveOutcome.successEmpty else RemoveOutcome.failureNotFound path, st1)
    else
      match errs, deleted with
      | [], [] => (RemoveOutcome.successEmpty, st1)
      | [], [p] => (RemoveOutcome.successSingle p, st1)
      | [], ps => (RemoveOutcome.successMany ps, st1)
      | err :: _, _ => (RemoveOutcome.failureFirst err, st1)

/-- The condition under which `_list`'s non-recursive branch synthesizes
a directory entry for a record (all the checks of `src/index.ts`, lines
475-484, in order): the name is not the query, extends the query as a
prefix, extends strictly beyond the normalized prefix, and has a
separator at some index `≥ normMatch.length + 1`. -/
def isNested (pth : String) (r : MRecord) : Bool :=
  (r.name != pth) && strStartsWith r.name pth &&
    strStartsWith r.name (normMatchOf pth) &&
    decide (strLen (normMatchOf pth) < strLen r.name) &&
    (strIndexOfFrom r.name '/' (strLen (normMatchOf pth) + 1)).isSome

/-- The name of the directory entry a nested record synthesizes:
`o.name.substring(0, nextSlash)`. -/
def dirEntryName (pth : String) (r : MRecord) : Option String :=
  if isNested pth r then
    (strIndexOfFrom r.name '/' (strLen (normMatchOf pth) + 1)).map (strTake r.name)
  else none

/-- All directory-entry names synthesized for a store at a query path. -/
def dirNames (pth : String) (st : List MRecord) : List String :=
  st.filterMap (dirEntryName pth)

/-- The stored names are pairwise distinct (IndexedDB keys are unique;
`put` with an explicit key can never create two records with the same
`name`). -/
def DistinctNames (st : List MRecord) : Prop :=
  st.Pairwise (fun a b => a.name ≠ b.name)

/-- Concrete comparator used in witnesses and counterexamples: plain
code-point lexicographic order on the character lists. -/
def charListLe : List Char → List Char → Bool
  | [], _ => true
  | _ :: _, [] => false
  | a :: as, b :: bs =>
    if a.toNat < b.toNat then true
    else if b.toNat < a.toNat then false
    else charListLe as bs

/-- Code-point lexicographic `≤` on strings. -/
def demoLe (a b : String) : Bool :=
  charListLe a.data b.data

/-! ### Helper lemmas: strings -/

theorem strStartsWith_iff {s p : String} : strStartsWith s p = true ↔ p.data <+: s.data := by
  simp [strStartsWith, List.isPrefixOf_iff_prefix]

theorem strStartsWith_refl (s : String) : strStartsWith s s = true :=
  strStartsWith_iff.mpr (List.prefix_refl _)

theorem strStartsWith_empty (s : String) : strStartsWith s "" = true := by
  simp [strStartsWith, List.isPrefixOf]

theorem data_append_slash (p : String) : (p ++ "/").data = p.data ++ ['/'] := by
  rw [String.data_append]

theorem strLen_append_slash (p : String) : strLen (p ++ "/") = strLen p + 1 := by
  simp [strLen, data_append_slash]

theorem append_slash_ne (p : String) : p ++ "/" ≠ p := by
  intro h
  have hlen : strLen (p ++ "/") = strLen p := by rw [h]
  rw [strLen_append_slash] at hlen
  omega

theorem charIndexOfAux_some {c : Char} :
    ∀ {l : List Char} {pos j : Nat}, charIndexOfAux c l pos = some j →
      ∃ k, j = pos + k ∧ l.get? k = some c := by
  intro l
  induction l with
  | nil => intro pos j h; simp [charIndexOfAux] at h
  | cons a as ih =>
    intro pos j h
    by_cases hac : a = c
    · simp [charIndexOfAux, hac] at h
      exact ⟨0, by omega, by simp [hac]⟩
    · simp [charIndexOfAux, hac] at h
      obtain ⟨k, hk, hget⟩ := ih h
      exact ⟨k + 1, by omega, by simpa using hget⟩

theorem strIndexOfFrom_some {s : String} {c : Char} {i j : Nat}
    (h : strIndexOfFrom s c i = some j) :
    i ≤ j ∧ s.data.get? j = some c := by
  rw [strIndexOfFrom] at h
  obtain ⟨k, hk, hget⟩ := charIndexOfAux_some h
  subst hk
  refine ⟨Nat.le_add_right _ _, ?_⟩
  rw [List.get?_drop] at hget
  exact hget

theorem take_cons_drop_of_get {l : List Char} {j : Nat} (h : l.get? j = some '/') :
    l.take j ++ '/' :: l.drop (j + 1) = l := by
  have hj : j < l.length := by
    by_contra hge
    rw [List.get?_eq_none.mpr (by omega)] at h
    exact Option.noConfusion h
  have hv : l[j] = '/' := by
    have hg := List.get?_eq_get hj
    rw [hg] at h
    exact Option.some.inj h
  have := List.getElem_cons_drop l j hj
  rw [hv] at this
  rw [this, List.take_append_drop]

/-! ### Helper lemmas: sorting -/

theorem sortByName_perm (le : String → String → Bool) (st : List MRecord) :
    (sortByName le st).Perm st :=
  List.perm_insertionSort _ st

theorem sortByName_pairwise_ne {le : String → String → Bool} {st : List MRecord}
    (h : DistinctNames st) :
    (sortByName le st).Pairwise (fun a b => a.name ≠ b.name) :=
  (List.Perm.pairwise_iff (fun hxy => Ne.symm hxy) (sortByName_perm le st)).mpr h

/-! ### Helper lemmas: de-duplication -/

theorem mem_of_mem_dedupAux {e : MEntry} :
    ∀ {l : List MEntry} {seen : List String}, e ∈ dedupByNameAux seen l → e ∈ l := by
  intro l
  induction l with
  | nil => intro seen h; simp [dedupByNameAux] at h
  | cons a as ih =>
    intro seen h
    by_cases hs : a.name ∈ seen
    · simp only [dedupByNameAux, if_pos hs] at h
      exact List.mem_cons_of_mem _ (ih h)
    · simp only [dedupByNameAux, if_neg hs, List.mem_cons] at h
      rcases h with h | h
      · exact h ▸ List.mem_cons_self _ _
      · exact List.mem_cons_of_mem _ (ih h)

theorem dedupAux_pairwise :
    ∀ (l : List MEntry) (seen : List String),
      (dedupByNameAux seen l).Pairwise (fun a b => a.name ≠ b.name) ∧
        ∀ e ∈ dedupByNameAux seen l, e.name ∉ seen := by
  intro l
  induction l with
  | nil => intro seen; simp [dedupByNameAux]
  | cons a as ih =>
    intro seen
    by_cases hs : a.name ∈ seen
    · simpa only [dedupByNameAux, if_pos hs] using ih seen
    · simp only [dedupByNameAux, if_neg hs]
      obtain ⟨hpw, hseen⟩ := ih (a.name :: seen)
      refine ⟨List.pairwise_cons.mpr ⟨?_, hpw⟩, ?_⟩
      · intro e he heq
        exact hseen e he (heq ▸ List.mem_cons_self _ _)
      · intro e he
        rcases List.mem_cons.mp he with rfl | he'
        · exact hs
        · intro hmem
          exact hseen e he' (List.mem_cons_of_mem _ hmem)

theorem dedupAux_eq_self :
    ∀ (l : List MEntry) (seen : List String),
      l.Pairwise (fun a b => a.name ≠ b.name) → (∀ e ∈ l, e.name ∉ seen) →
        dedupByNameAux seen l = l := by
  intro l
  induction l with
  | nil => intro seen _ _; rfl
  | cons a as ih =>
    intro seen hpw hseen
    have ha : a.name ∉ seen := hseen a (List.mem_cons_self _ _)
    obtain ⟨hhead, htail⟩ := List.pairwise_cons.mp hpw
    simp only [dedupByNameAux, if_neg ha]
    rw [ih (a.name :: seen) htail]
    intro e he
    simp only [List.mem_cons]
    push_neg
    exact ⟨Ne.symm (hhead e he), hseen e (List.mem_cons_of_mem _ he)⟩

theorem exists_mem_dedupAux_of_name :
    ∀ (l : List MEntry) (seen : List String) (n : String),
      (∃ e ∈ l, e.name = n) → n ∉ seen →
        ∃ e ∈ dedupByNameAux seen l, e.name = n := by
  intro l
  induction l with
  | nil => intro seen n h _; simp at h
  | cons a as ih =>
    intro seen n h hn
    by_cases hs : a.name ∈ seen
    · simp only [dedupByNameAux, if_pos hs]
      obtain ⟨e, he, hen⟩ := h
      rcases List.mem_cons.mp he with rfl | he'
      · exact absurd (hen ▸ hs) hn
      · exact ih seen n ⟨e, he', hen⟩ hn
    · simp only [dedupByNameAux, if_neg hs]
      by_cases han : a.name = n
      · exact ⟨a, List.mem_cons_self _ _, han⟩
      · obtain ⟨e, he, hen⟩ := h
        rcases List.mem_cons.mp he with rfl | he'
        · exact absurd hen han
        · obtain ⟨e', he', hen'⟩ := ih (a.name :: seen) n ⟨e, he', hen⟩ (by
            simp only [List.mem_cons]
            push_neg
            exact ⟨fun hc => han hc.symm, hn⟩)
          exact ⟨e', List.mem_cons_of_mem _ he', hen'⟩

theorem dedupByName_eq_self {l : List MEntry}
    (h : l.Pairwise (fun a b => a.name ≠ b.name)) : dedupByName l = l :=
  dedupAux_eq_self l [] h (by simp)

/-! ### Helper lemmas: the mapping pass -/

theorem mapEntry_recursive (pth : String) (r : MRecord) :
    mapEntry pth true r =
      if strStartsWith r.name pth = true then some (MEntry.file r) else none := by
  by_cases hex : r.name = pth
  · rw [mapEntry, if_pos hex, if_pos (hex ▸ strStartsWith_refl r.name)]
  · rw [mapEntry, if_neg hex]
    by_cases hsw : strStartsWith r.name pth = true
    · simp [hsw]
    · simp [hsw]

theorem mapEntry_file_eq {pth : String} {recursive : Bool} {r x : MRecord}
    (h : mapEntry pth recursive r = some (MEntry.file x)) : x = r := by
  rw [mapEntry] at h
  split at h
  · exact (MEntry.file.inj (Option.some.inj h)).symm
  · split at h
    · split at h
      · exact (MEntry.file.inj (Option.some.inj h)).symm
      · split at h
        · split at h
          · exact (MEntry.file.inj (Option.some.inj h)).symm
          · exact absurd (Option.some.inj h) (by simp)
        · exact Option.noConfusion h
    · exact Option.noConfusion h

theorem mapEntry_dir_iff {pth : String} {r : MRecord} {d : String} :
    mapEntry pth false r = some (MEntry.dir d) ↔ dirEntryName pth r = some d := by
  rw [mapEntry, dirEntryName, isNested]
  cases hidx : strIndexOfFrom r.name '/' (strLen (normMatchOf pth) + 1) with
  | none => split_ifs <;> simp_all [bne_iff_ne]
  | some j =>
    by_cases hex : r.name = pth
    · simp [hex, bne_iff_ne]
    · by_cases hsw : strStartsWith r.name pth = true
      · by_cases hc1 : strStartsWith r.name (normMatchOf pth) = true
        · by_cases hc2 : strLen (normMatchOf pth) < strLen r.name
          · simp [hex, hsw, hc1, hc2, bne_iff_ne]
          · simp [hex, hsw, hc1, hc2, bne_iff_ne]
        · simp [hex, hsw, hc1, bne_iff_ne]
      · simp [hex, hsw, bne_iff_ne]

/-! ### Helper lemmas: the exact match -/

theorem listFoundExact_some {le : String → String → Bool} {st : List MRecord}
    {pth : String} {o : MRecord} (h : listFoundExact le st pth = some o) :
    o ∈ st ∧ o.name = pth := by
  have hmem := List.mem_of_mem_getLast? h
  obtain ⟨hmem', hname⟩ := List.mem_filter.mp hmem
  exact ⟨(sortByName_perm le st).mem_iff.mp hmem', by simpa using hname⟩

theorem filter_name_eq_singleton {st : List MRecord} {r : MRecord} {pth : String}
    (hpw : st.Pairwise (fun a b => a.name ≠ b.name)) (hr : r ∈ st) (hname : r.name = pth) :
    st.filter (fun o => o.name == pth) = [r] := by
  induction st with
  | nil => exact absurd hr (List.not_mem_nil r)
  | cons x xs ih =>
    obtain ⟨hhead, htail⟩ := List.pairwise_cons.mp hpw
    by_cases hx : x.name = pth
    · have hrx : r = x := by
        rcases List.mem_cons.mp hr with rfl | hr'
        · rfl
        · exact absurd (hname ▸ hx.symm) (Ne.symm (hhead r hr'))
      subst hrx
      rw [List.filter_cons_of_pos (by simpa using hx)]
      rw [List.filter_eq_nil_iff.mpr ?_]
      intro y hy
      simp only [beq_iff_eq]
      intro hc
      exact hhead y hy (by rw [hx, hc])
    · have hrx : r ∈ xs := by
        rcases List.mem_cons.mp hr with rfl | hr'
        · exact absurd hname hx
        · exact hr'
      rw [List.filter_cons_of_neg (by simpa using hx)]
      exact ih htail hrx

theorem listFoundExact_eq_some {le : String → String → Bool} {st : List MRecord}
    {r : MRecord} {pth : String} (hD : DistinctNames st) (hr : r ∈ st)
    (hname : r.name = pth) : listFoundExact le st pth = some r := by
  have hperm : ((sortByName le st).filter (fun o => o.name == pth)).Perm
      (st.filter (fun o => o.name == pth)) :=
    List.Perm.filter _ (sortByName_perm le st)
  rw [filter_name_eq_singleton hD hr hname] at hperm
  rw [listFoundExact, List.perm_singleton.mp hperm]
  rfl

theorem listFoundExact_eq_none {le : String → String → Bool} {st : List MRecord}
    {pth : String} (h : ∀ r ∈ st, r.name ≠ pth) : listFoundExact le st pth = none := by
  rw [listFoundExact, List.filter_eq_nil_iff.mpr ?_]
  · rfl
  · intro o ho
    simpa using h o ((sortByName_perm le st).mem_iff.mp ho)

theorem mem_listFiltered {le : String → String → Bool} {st : List MRecord}
    {pth : String} {recursive : Bool} {e : MEntry}
    (h : e ∈ listFiltered le st pth recursive) :
    ∃ r ∈ st, mapEntry pth recursive r = some e := by
  simp only [listFiltered, dedupByName] at h
  obtain ⟨r, hr, hmap⟩ := List.mem_filterMap.mp (mem_of_mem_dedupAux h)
  exact ⟨r, (sortByName_perm le st).mem_iff.mp hr, hmap⟩

/-! ### Claim theorems -/

/-- C1: for every stored collection with pairwise-distinct names, if a
record's name equals the query path exactly and `recursive` is false,
`_list` resolves with exactly the singleton containing that record —
regardless of what else matches the path as a prefix — and a supplied
visitor is invoked exactly once, with that exact-match record. -/
theorem c1_exact_match_short_circuit (le : String → String → Bool) (st : List MRecord)
    (p : String) (r : MRecord) (hD : DistinctNames st) (hr : r ∈ st) (hname : r.name = p) :
    listResult le st p false = [MEntry.file r] ∧
      listVisits le st p false = [MEntry.file r] := by
  have hfe := @listFoundExact_eq_some le st r p hD hr hname
  constructor
  · simp only [listResult, hfe]
  · simp only [listVisits, hfe]

/-- Witness for C1: store `["a", "a/b", "a/c/d"]`, query `"a"`. -/
theorem c1_witness :
    listResult demoLe
        [⟨"a", MType.file, [1], 1, 0⟩, ⟨"a/b", MType.file, [2], 1, 0⟩,
          ⟨"a/c/d", MType.file, [3], 1, 0⟩] "a" false =
      [MEntry.file ⟨"a", MType.file, [1], 1, 0⟩] ∧
    listVisits demoLe
        [⟨"a", MType.file, [1], 1, 0⟩, ⟨"a/b", MType.file, [2], 1, 0⟩,
          ⟨"a/c/d", MType.file, [3], 1, 0⟩] "a" false =
      [MEntry.file ⟨"a", MType.file, [1], 1, 0⟩] :=
  c1_exact_match_short_circuit demoLe _ "a" ⟨"a", MType.file, [1], 1, 0⟩
    (by simp [DistinctNames]) (by simp) rfl

/-- C9: a stored record with an empty payload makes `read` stall: the
chunk callback is never invoked and the transaction-completion handler
neither resolves with a byte count nor rejects with
`MobilettoNotFoundError`. -/
theorem c9_empty_payload_read_stalls (st : List MRecord) (p : String) (r : MRecord)
    (h : getRecord st p = some r) (hb : r.bytes = []) :
    readModel st p = ReadResult.stall ∧ readChunks st p = [] := by
  simp [readModel, readChunks, h, hb]

/-- Witness for C9: a store holding one record with an empty payload. -/
theorem c9_witness :
    readModel [⟨"e", MType.file, [], 0, 0⟩] "e" = ReadResult.stall ∧
      readChunks [⟨"e", MType.file, [], 0, 0⟩] "e" = [] :=
  c9_empty_payload_read_stalls _ "e" ⟨"e", MType.file, [], 0, 0⟩ (by rfl) rfl

/-- C10: for a non-empty query path `p` with no trailing separator, a
record named exactly `p ++ "/"` matches `p` as a prefix but does not
extend strictly beyond the normalized prefix `p ++ "/"`, so the mapping
pass drops it (`null`) and it appears in no non-recursive listing of
`p` — not as a file, not as the exact match, and it synthesizes no
directory entry. -/
theorem c10_boundary_record_excluded (le : String → String → Bool) (st : List MRecord)
    (p : String) (r : MRecord) (hp : p ≠ "") (hs : strEndsSlash p = false)
    (hn : r.name = p ++ "/") :
    mapEntry p false r = none ∧ MEntry.file r ∉ listResult le st p false := by
  have hne : r.name ≠ p := by rw [hn]; exact append_slash_ne p
  have hnorm : normMatchOf p = p ++ "/" := by
    rw [normMatchOf, if_neg hp, if_neg (by simp [hs])]
  have hsw : strStartsWith r.name p = true := by
    rw [strStartsWith_iff, hn, data_append_slash]
    exact List.prefix_append _ _
  have hmap : mapEntry p false r = none := by
    rw [mapEntry, if_neg hne, if_pos hsw, hnorm, hn]
    simp
  refine ⟨hmap, ?_⟩
  intro hmem
  cases hfe : listFoundExact le st p with
  | some o =>
    simp only [listResult, hfe] at hmem
    have ho := (listFoundExact_some hfe).2
    rcases List.mem_singleton.mp hmem with heq
    exact hne ((MEntry.file.inj heq) ▸ ho)
  | none =>
    simp only [listResult, hfe] at hmem
    obtain ⟨r', _, hmap'⟩ := mem_listFiltered hmem
    have heq := mapEntry_file_eq hmap'
    subst heq
    rw [hmap] at hmap'
    exact Option.noConfusion hmap'

/-- Witness for C10: query `"a"`, record `"a/"`. -/
theorem c10_witness :
    mapEntry "a" false ⟨"a/", MType.file, [1], 1, 0⟩ = none ∧
      MEntry.file ⟨"a/", MType.file, [1], 1, 0⟩ ∉
        listResult demoLe [⟨"a/", MType.file, [1], 1, 0⟩] "a" false :=
  c10_boundary_record_excluded demoLe _ "a" ⟨"a/", MType.file, [1], 1, 0⟩
    (by decide) (by decide) (by decide)

/-- C3 counterexample: for the stored record `"a/b/c"` listed at `"a"`,
the further separator is at index 3 and the synthesized directory
object is named `"a/b"` — `substring(0, nextSlash)` excludes the
separator, so the directory name does *not* end with `'/'` (the claim
asserts the substring includes the separator). -/
theorem c3_counterexample :
    mapEntry "a" false ⟨"a/b/c", MType.file, [1], 1, 0⟩ = some (MEntry.dir "a/b") ∧
      strEndsSlash "a/b" = false := by
  constructor <;> rfl

/-- C3 amended: when a record's name is not the query, extends the
query and its normalized prefix, and has a further separator at some
index `≥ normMatch.length + 1`, the synthesized directory entry is
named `name.substring(0, nextSlash)` — the characters strictly before
the separator, excluding the separator itself: the name followed by
`'/'` and the remainder reassembles the record's name. -/
theorem c3_dir_name_excludes_separator (p : String) (r : MRecord) (j : Nat)
    (hne : r.name ≠ p) (hsw : strStartsWith r.name p = true)
    (hnp : strStartsWith r.name (normMatchOf p) = true)
    (hlen : strLen (normMatchOf p) < strLen r.name)
    (hj : strIndexOfFrom r.name '/' (strLen (normMatchOf p) + 1) = some j) :
    mapEntry p false r = some (MEntry.dir (strTake r.name j)) ∧
      (strTake r.name j).data ++ '/' :: r.name.data.drop (j + 1) = r.name.data := by
  constructor
  · rw [mapEntry, if_neg hne, if_pos hsw, if_neg (by simp : ¬false = true),
      if_pos (by simp [hnp, hlen]), hj]
  · exact take_cons_drop_of_get (strIndexOfFrom_some hj).2

/-- Witness for C3 amended: record `"a/b/c"`, query `"a"`, separator
index 3. -/
theorem c3_witness :
    mapEntry "a" false ⟨"a/b/c", MType.file, [1], 1, 0⟩ = some (MEntry.dir (strTake "a/b/c" 3)) ∧
      (strTake "a/b/c" 3).data ++ '/' :: "a/b/c".data.drop (3 + 1) = "a/b/c".data :=
  c3_dir_name_excludes_separator "a" ⟨"a/b/c", MType.file, [1], 1, 0⟩ 3
    (by decide) (by decide) (by decide) (by decide) (by decide)

/-- C4 counterexample: `nullCount` accumulates across the whole pull
sequence and never resets.  First conjunct: a sequence whose empty
yields all come in runs of length 1, each followed by a non-empty
chunk; the claim says aggregation never ends and every chunk is
appended, but the sixth cumulative empty yield stops the loop and the
chunk `[6]` is lost.  Second conjunct: five *consecutive* empty yields
do not finish the sequence — the following chunk `[9]` is still
appended, contradicting the claim's termination condition. -/
theorem c4_counterexample :
    writeBytes [none, some [1], none, some [2], none, some [3], none, some [4],
        none, some [5], none, some [6]] = [1, 2, 3, 4, 5] ∧
      writeBytes [none, none, none, none, none, some [9]] = [9] := by
  constructor <;> rfl

theorem aggregate_le_five :
    ∀ (ys : List (Option (List Nat))) (acc : List Nat) (n : Nat),
      noneCount ys + n ≤ 5 → aggregate ys acc n = acc ++ chunksFlat ys := by
  intro ys
  induction ys with
  | nil => intro acc n _; simp [aggregate, chunksFlat]
  | cons y rest ih =>
    intro acc n h
    cases y with
    | some c =>
      rw [show aggregate (some c :: rest) acc n = aggregate rest (acc ++ c) n from rfl]
      rw [ih (acc ++ c) n (by simpa [noneCount] using h)]
      simp [chunksFlat]
    | none =>
      have hn : n < 5 := by simp [noneCount] at h; omega
      rw [show aggregate (none :: rest) acc n =
        (if n < 5 then aggregate rest acc (n + 1) else acc) from rfl, if_pos hn]
      rw [ih acc (n + 1) (by simp [noneCount] at h ⊢; omega)]
      simp [chunksFlat]

theorem aggregate_sixth_none :
    ∀ (pre post : List (Option (List Nat))) (acc : List Nat) (n : Nat),
      noneCount pre + n = 5 → aggregate (pre ++ none :: post) acc n = acc ++ chunksFlat pre := by
  intro pre
  induction pre with
  | nil =>
    intro post acc n h
    simp [noneCount] at h
    subst h
    rw [show aggregate (([] : List (Option (List Nat))) ++ none :: post) acc 5 =
      (if 5 < 5 then aggregate post acc 6 else acc) from rfl]
    simp [chunksFlat]
  | cons y rest ih =>
    intro post acc n h
    cases y with
    | some c =>
      rw [show aggregate ((some c :: rest) ++ none :: post) acc n =
        aggregate (rest ++ none :: post) (acc ++ c) n from rfl]
      rw [ih post (acc ++ c) n (by simpa [noneCount] using h)]
      simp [chunksFlat]
    | none =>
      have hn : n < 5 := by simp [noneCount] at h; omega
      rw [show aggregate ((none :: rest) ++ none :: post) acc n =
        (if n < 5 then aggregate (rest ++ none :: post) acc (n + 1) else acc) from rfl, if_pos hn]
      rw [ih post acc (n + 1) (by simp [noneCount] at h ⊢; omega)]
      simp [chunksFlat]

/-- C4 amended: the write aggregator counts empty/absent yields
cumulatively over the whole pull sequence and never resets the count.
Aggregation ends at the first empty yield pulled after five empty
yields have already been seen (i.e. at the sixth cumulative empty
yield), with every non-empty chunk pulled before that point appended
in pull order; and when the entire sequence contains at most five
empty yields, every non-empty chunk is appended in pull order. -/
theorem c4_cumulative_empty_yields (pre post ys : List (Option (List Nat)))
    (h5 : noneCount pre = 5) (hle : noneCount ys ≤ 5) :
    writeBytes (pre ++ none :: post) = chunksFlat pre ∧ writeBytes ys = chunksFlat ys := by
  constructor
  · rw [writeBytes, aggregate_sixth_none pre post [] 0 (by omega)]
    simp
  · rw [writeBytes, aggregate_le_five ys [] 0 (by omega)]
    simp

/-- Witness for C4 amended: five scattered empty yields before the
terminating sixth; a short sequence with two empty yields. -/
theorem c4_witness :
    writeBytes ([some [1], none, some [2], none, none, some [3], none, none] ++
        none :: [some [4]]) =
      chunksFlat [some [1], none, some [2], none, none, some [3], none, none] ∧
    writeBytes [none, some [7], none, some [8]] = chunksFlat [none, some [7], none, some [8]] :=
  c4_cumulative_empty_yields
    [some [1], none, some [2], none, none, some [3], none, none] [some [4]]
    [none, some [7], none, some [8]] (by rfl) (by decide)

theorem getRecord_putRecord (st : List MRecord) (r : MRecord) :
    getRecord (putRecord st r) r.name = some r := by
  rw [getRecord, putRecord, List.find?_append]
  have h1 : (st.filter (fun x => x.name != r.name)).find? (fun x => x.name == r.name) = none := by
    rw [List.find?_eq_none]
    intro x hx
    simpa [bne_iff_ne] using (List.mem_filter.mp hx).2
  rw [h1]
  simp [List.find?]

/-- C6 counterexample: writing the empty byte sequence stores a record
with an empty payload, so the subsequent `read` stalls — the callback
receives nothing and no byte count is resolved — contradicting the
claim for `bytes = []`. -/
theorem c6_counterexample :
    (writeModel [] "p" [some []] 0).2 = 0 ∧
      readModel (writeModel [] "p" [some []] 0).1 "p" = ReadResult.stall ∧
      readChunks (writeModel [] "p" [some []] 0).1 "p" = [] := by
  refine ⟨rfl, rfl, rfl⟩

/-- C6 amended: for every *non-empty* finite byte sequence, `write`
followed by `read` of the same path delivers exactly those bytes to
the callback in a single chunk and resolves with their count (for the
empty sequence the read stalls instead — see the C9 theorem). -/
theorem c6_write_then_read (st : List MRecord) (p : String) (bs : List Nat) (now : Nat)
    (hb : bs ≠ []) :
    (writeModel st p [some bs] now).2 = bs.length ∧
      readModel (writeModel st p [some bs] now).1 p = ReadResult.success bs bs.length ∧
      readChunks (writeModel st p [some bs] now).1 p = [bs] := by
  have hw : writeBytes [some bs] = bs := rfl
  have hlen : 0 < bs.length := List.length_pos.mpr hb
  have hg := getRecord_putRecord st ⟨p, MType.file, bs, bs.length, now⟩
  exact ⟨by simp [writeModel, hw], by simp [writeModel, readModel, hw, hg, hlen],
    by simp [writeModel, readChunks, hw, hg, hlen]⟩

/-- Witness for C6 amended: bytes `[7, 8]` at path `"p"`. -/
theorem c6_witness :
    (writeModel [] "p" [some [7, 8]] 0).2 = [7, 8].length ∧
      readModel (writeModel [] "p" [some [7, 8]] 0).1 "p" =
        ReadResult.success [7, 8] [7, 8].length ∧
      readChunks (writeModel [] "p" [some [7, 8]] 0).1 "p" = [[7, 8]] :=
  c6_write_then_read [] "p" [7, 8] 0 (by decide)

theorem listVisits_eq_nil {le : String → String → Bool} {st : List MRecord}
    {pth : String} {recursive : Bool} (h : listResult le st pth recursive = []) :
    listVisits le st pth recursive = [] := by
  cases hfe : listFoundExact le st pth with
  | some o =>
    cases recursive with
    | false =>
      simp only [listResult, hfe] at h
      exact absurd h (by simp)
    | true =>
      simp only [listResult, hfe] at h
      simp only [listVisits, hfe, h, List.filter_nil]
  | none =>
    simp only [listResult, hfe] at h
    cases recursive <;> simp only [listVisits, hfe, h, List.filter_nil]

/-- C8: when the initial enumeration matches zero stored entries,
`remove` fails with `MobilettoNotFoundError(path)` when not quiet and
returns the empty result when quiet; in both cases no visitor ever ran,
so the store state is unchanged. -/
theorem c8_remove_nothing_matched (le : String → String → Bool) (st : List MRecord)
    (p : String) (recursive : Bool) (h : listResult le st p recursive = []) :
    removeModel le st p recursive false = (RemoveOutcome.failureNotFound p, st) ∧
      removeModel le st p recursive true = (RemoveOutcome.successEmpty, st) := by
  have hv := listVisits_eq_nil h
  constructor <;> simp [removeModel, hv, h]

/-- Witness for C8: a one-record store queried at a missing path. -/
theorem c8_witness :
    removeModel demoLe [⟨"a/x", MType.file, [1], 1, 0⟩] "missing" false false =
        (RemoveOutcome.failureNotFound "missing", [⟨"a/x", MType.file, [1], 1, 0⟩]) ∧
      removeModel demoLe [⟨"a/x", MType.file, [1], 1, 0⟩] "missing" false true =
        (RemoveOutcome.successEmpty, [⟨"a/x", MType.file, [1], 1, 0⟩]) :=
  c8_remove_nothing_matched demoLe [⟨"a/x", MType.file, [1], 1, 0⟩] "missing" false (by decide)

theorem charListLe_total : ∀ (a b : List Char), charListLe a b = true ∨ charListLe b a = true := by
  intro a
  induction a with
  | nil => intro b; left; rfl
  | cons x xs ih =>
    intro b
    cases b with
    | nil => right; rfl
    | cons y ys =>
      rw [charListLe, charListLe]
      by_cases h1 : x.toNat < y.toNat
      · left; rw [if_pos h1]
      · by_cases h2 : y.toNat < x.toNat
        · right; rw [if_pos h2]
        · rcases ih ys with h | h
          · left; rw [if_neg h1, if_neg h2]; exact h
          · right; rw [if_neg h2, if_neg h1]; exact h

theorem charListLe_trans : ∀ (a b c : List Char),
    charListLe a b = true → charListLe b c = true → charListLe a c = true := by
  intro a
  induction a with
  | nil => intro b c _ _; rfl
  | cons x xs ih =>
    intro b c hab hbc
    cases b with
    | nil => exact absurd hab (by simp [charListLe])
    | cons y ys =>
      cases c with
      | nil => exact absurd hbc (by simp [charListLe])
      | cons z zs =>
        rw [charListLe] at hab hbc ⊢
        split_ifs at hab hbc ⊢
        all_goals try rfl
        all_goals try exact ih ys zs hab hbc
        all_goals try simp at hab
        all_goals try simp at hbc
        all_goals exfalso
        all_goals omega

theorem demoLe_total (a b : String) : demoLe a b = true ∨ demoLe b a = true :=
  charListLe_total a.data b.data

theorem demoLe_trans (a b c : String) (hab : demoLe a b = true) (hbc : demoLe b c = true) :
    demoLe a c = true :=
  charListLe_trans a.data b.data c.data hab hbc

theorem mapEntry_empty_recursive (r : MRecord) : mapEntry "" true r = some (MEntry.file r) := by
  rw [mapEntry_recursive, if_pos (strStartsWith_empty r.name)]

theorem filterMap_mapEntry_empty (l : List MRecord) :
    l.filterMap (mapEntry "" true) = l.map MEntry.file := by
  induction l with
  | nil => rfl
  | cons a as ih => simp [List.filterMap_cons, mapEntry_empty_recursive, ih]

/-- C5: with pairwise-distinct names, recursive `list` at the empty
path returns exactly the stored FILE records — each as itself, no
synthesized directory entries — as the sorted permutation of the store,
with the sort order (the `localeCompare` comparator `le`, assumed
transitive and total) holding pairwise along the result. -/
theorem c5_recursive_root_listing (le : String → String → Bool) (st : List MRecord)
    (hD : DistinctNames st) (hF : ∀ r ∈ st, r.type = MType.file)
    (htr : ∀ a b c, le a b = true → le b c = true → le a c = true)
    (hto : ∀ a b, le a b = true ∨ le b a = true) :
    listResult le st "" true = (sortByName le st).map MEntry.file ∧
      (sortByName le st).Perm st ∧
      (sortByName le st).Pairwise (fun a b => le a.name b.name = true) ∧
      ∀ e ∈ listResult le st "" true, e.type = MType.file := by
  have hfiltered : listFiltered le st "" true = (sortByName le st).map MEntry.file := by
    rw [listFiltered, filterMap_mapEntry_empty]
    apply dedupByName_eq_self
    rw [List.pairwise_map]
    exact sortByName_pairwise_ne hD
  have hres : listResult le st "" true = (sortByName le st).map MEntry.file := by
    cases hfe : listFoundExact le st "" <;> simp only [listResult, hfe, hfiltered]
  refine ⟨hres, sortByName_perm le st, ?_, ?_⟩
  · haveI : IsTotal MRecord (fun a b => le a.name b.name = true) :=
      ⟨fun a b => hto a.name b.name⟩
    haveI : IsTrans MRecord (fun a b => le a.name b.name = true) :=
      ⟨fun a b c => htr a.name b.name c.name⟩
    exact List.sorted_insertionSort _ st
  · intro e he
    rw [hres] at he
    obtain ⟨r, hr, rfl⟩ := List.mem_map.mp he
    exact hF r ((sortByName_perm le st).mem_iff.mp hr)

/-- Witness for C5: three records listed at the root. -/
theorem c5_witness :
    listResult demoLe
        [⟨"b", MType.file, [1], 1, 0⟩, ⟨"a/x", MType.file, [2], 1, 0⟩,
          ⟨"a", MType.file, [3], 1, 0⟩] "" true =
      (sortByName demoLe
        [⟨"b", MType.file, [1], 1, 0⟩, ⟨"a/x", MType.file, [2], 1, 0⟩,
          ⟨"a", MType.file, [3], 1, 0⟩]).map MEntry.file ∧
    (sortByName demoLe
        [⟨"b", MType.file, [1], 1, 0⟩, ⟨"a/x", MType.file, [2], 1, 0⟩,
          ⟨"a", MType.file, [3], 1, 0⟩]).Perm
      [⟨"b", MType.file, [1], 1, 0⟩, ⟨"a/x", MType.file, [2], 1, 0⟩,
        ⟨"a", MType.file, [3], 1, 0⟩] ∧
    (sortByName demoLe
        [⟨"b", MType.file, [1], 1, 0⟩, ⟨"a/x", MType.file, [2], 1, 0⟩,
          ⟨"a", MType.file, [3], 1, 0⟩]).Pairwise
      (fun a b => demoLe a.name b.name = true) := by
  have h := c5_recursive_root_listing demoLe
    [⟨"b", MType.file, [1], 1, 0⟩, ⟨"a/x", MType.file, [2], 1, 0⟩,
      ⟨"a", MType.file, [3], 1, 0⟩]
    (by simp [DistinctNames]) (by decide) demoLe_trans demoLe_total
  exact ⟨h.1, h.2.1, h.2.2.1⟩

theorem isNested_dirEntryName {pth : String} {r : MRecord} (h : isNested pth r = true) :
    ∃ d, dirEntryName pth r = some d := by
  rw [dirEntryName, if_pos h]
  have hsome : (strIndexOfFrom r.name '/' (strLen (normMatchOf pth) + 1)).isSome = true := by
    rw [isNested] at h
    simp only [Bool.and_eq_true] at h
    exact h.2
  obtain ⟨j, hj⟩ := Option.isSome_iff_exists.mp hsome
  exact ⟨strTake r.name j, by rw [hj]; rfl⟩

/-- C2 counterexample, two scenarios in which a stored file lies
strictly below the query path yet the non-recursive listing contains
no synthesized directory entry at all.  First: a record named exactly
`"a"` short-circuits the listing of `"a"` to the exact match, so the
nested `"a/b/c"` produces no directory entry.  Second: a direct-child
file named `"a/b"` and a nested `"a/b/c"` — the synthesized directory
is also named `"a/b"`, and de-duplication by name keeps the file
record, which sorts first, so no directory entry survives. -/
theorem c2_counterexample :
    isNested "a" ⟨"a/b/c", MType.file, [1], 1, 0⟩ = true ∧
      listResult demoLe [⟨"a", MType.file, [9], 1, 0⟩, ⟨"a/b/c", MType.file, [1], 1, 0⟩]
          "a" false =
        [MEntry.file ⟨"a", MType.file, [9], 1, 0⟩] ∧
      listResult demoLe [⟨"a/b", MType.file, [1], 1, 0⟩, ⟨"a/b/c", MType.file, [2], 1, 0⟩]
          "a" false =
        [MEntry.file ⟨"a/b", MType.file, [1], 1, 0⟩] := by
  decide

/-- C2 amended: for a store with pairwise-distinct names, a query path
`p` with at least one stored file strictly below it, *no stored record
named exactly `p`*, and *no stored record sharing its name with a
synthesized directory name*, the non-recursive listing contains the
directory entry named `d` exactly when `d` is a synthesized
directory name of the store (and, names in the result being pairwise
distinct, at most one entry per name — so exactly one DIRECTORY entry
per distinct next-level segment), and no indirectly-nested FILE record
itself ever appears in the result. -/
theorem c2_one_dir_per_segment (le : String → String → Bool) (st : List MRecord)
    (p : String) (hD : DistinctNames st)
    (hnest : ∃ r ∈ st, isNested p r = true)
    (hnoexact : ∀ r ∈ st, r.name ≠ p)
    (hnocollide : ∀ r ∈ st, r.name ∉ dirNames p st) :
    (∀ d, MEntry.dir d ∈ listResult le st p false ↔ d ∈ dirNames p st) ∧
      (listResult le st p false).Pairwise (fun a b => a.name ≠ b.name) ∧
      (∀ r : MRecord, isNested p r = true → MEntry.file r ∉ listResult le st p false) := by
  have hfe : listFoundExact le st p = none := listFoundExact_eq_none hnoexact
  have hres : listResult le st p false = listFiltered le st p false := by
    simp only [listResult, hfe]
  refine ⟨?_, ?_, ?_⟩
  · intro d
    rw [hres]
    constructor
    · intro hmem
      obtain ⟨r, hr, hmap⟩ := mem_listFiltered hmem
      exact List.mem_filterMap.mpr ⟨r, hr, mapEntry_dir_iff.mp hmap⟩
    · intro hd
      obtain ⟨r0, hr0, hden⟩ := List.mem_filterMap.mp hd
      have hr0s : r0 ∈ sortByName le st := (sortByName_perm le st).mem_iff.mpr hr0
      have hent : MEntry.dir d ∈ (sortByName le st).filterMap (mapEntry p false) :=
        List.mem_filterMap.mpr ⟨r0, hr0s, mapEntry_dir_iff.mpr hden⟩
      obtain ⟨e', he', hname⟩ := exists_mem_dedupAux_of_name
        ((sortByName le st).filterMap (mapEntry p false)) [] d
        ⟨MEntry.dir d, hent, rfl⟩ (by simp)
      have he'mem : e' ∈ (sortByName le st).filterMap (mapEntry p false) :=
        mem_of_mem_dedupAux he'
      obtain ⟨r', hr', hmap'⟩ := List.mem_filterMap.mp he'mem
      cases e' with
      | file x =>
        have hx := mapEntry_file_eq hmap'
        subst hx
        have : x.name ∈ dirNames p st := by
          rw [MEntry.name] at hname
          exact hname ▸ hd
        exact absurd this (hnocollide x ((sortByName_perm le st).mem_iff.mp hr'))
      | dir d' =>
        have : d' = d := hname
        subst this
        simpa only [listFiltered, dedupByName] using he'
  · rw [hres, listFiltered, dedupByName]
    exact (dedupAux_pairwise _ _).1
  · intro r hnested hmem
    rw [hres] at hmem
    obtain ⟨r', hr', hmap'⟩ := mem_listFiltered hmem
    have hx := mapEntry_file_eq hmap'
    subst hx
    obtain ⟨d, hden⟩ := isNested_dirEntryName hnested
    have := mapEntry_dir_iff.mpr hden
    rw [hmap'] at this
    exact MEntry.noConfusion (Option.some.inj this)

/-- Witness for C2 amended: store
`["a/b/c", "a/b/d", "a/e/f", "a/g", "b"]` listed at `"a"`. -/
theorem c2_witness :
    (MEntry.dir "a/b" ∈ listResult demoLe
        [⟨"a/b/c", MType.file, [1], 1, 0⟩, ⟨"a/b/d", MType.file, [2], 1, 0⟩,
          ⟨"a/e/f", MType.file, [3], 1, 0⟩, ⟨"a/g", MType.file, [4], 1, 0⟩,
          ⟨"b", MType.file, [5], 1, 0⟩] "a" false ↔
      "a/b" ∈ dirNames "a"
        [⟨"a/b/c", MType.file, [1], 1, 0⟩, ⟨"a/b/d", MType.file, [2], 1, 0⟩,
          ⟨"a/e/f", MType.file, [3], 1, 0⟩, ⟨"a/g", MType.file, [4], 1, 0⟩,
          ⟨"b", MType.file, [5], 1, 0⟩]) ∧
      MEntry.file ⟨"a/b/c", MType.file, [1], 1, 0⟩ ∉ listResult demoLe
        [⟨"a/b/c", MType.file, [1], 1, 0⟩, ⟨"a/b/d", MType.file, [2], 1, 0⟩,
          ⟨"a/e/f", MType.file, [3], 1, 0⟩, ⟨"a/g", MType.file, [4], 1, 0⟩,
          ⟨"b", MType.file, [5], 1, 0⟩] "a" false := by
  have h := c2_one_dir_per_segment demoLe
    [⟨"a/b/c", MType.file, [1], 1, 0⟩, ⟨"a/b/d", MType.file, [2], 1, 0⟩,
      ⟨"a/e/f", MType.file, [3], 1, 0⟩, ⟨"a/g", MType.file, [4], 1, 0⟩,
      ⟨"b", MType.file, [5], 1, 0⟩] "a"
    (by simp [DistinctNames]) (by decide) (by decide) (by decide)
  exact ⟨h.1 "a/b", h.2.2 ⟨"a/b/c", MType.file, [1], 1, 0⟩ (by decide)⟩

theorem filterMap_mapEntry_recursive (pth : String) (l : List MRecord) :
    l.filterMap (mapEntry pth true) =
      (l.filter (fun r => strStartsWith r.name pth)).map MEntry.file := by
  induction l with
  | nil => rfl
  | cons a as ih =>
    by_cases h : strStartsWith a.name pth = true
    · simp [List.filterMap_cons, mapEntry_recursive, h, ih, List.filter_cons]
    · simp [List.filterMap_cons, mapEntry_recursive, h, ih, List.filter_cons]

theorem listResult_eq_filtered_recursive (le : String → String → Bool) (st : List MRecord)
    (pth : String) : listResult le st pth true = listFiltered le st pth true := by
  cases hfe : listFoundExact le st pth <;> simp only [listResult, hfe]

theorem listVisits_eq_filter_recursive (le : String → String → Bool) (st : List MRecord)
    (pth : String) : listVisits le st pth true =
      (listFiltered le st pth true).filter (fun e => e.type == MType.file) := by
  cases hfe : listFoundExact le st pth <;> simp only [listVisits, hfe]

theorem listResult_recursive {le : String → String → Bool} {st : List MRecord}
    {pth : String} (hD : DistinctNames st) :
    listResult le st pth true =
      ((sortByName le st).filter (fun r => strStartsWith r.name pth)).map MEntry.file := by
  rw [listResult_eq_filtered_recursive, listFiltered, filterMap_mapEntry_recursive]
  apply dedupByName_eq_self
  rw [List.pairwise_map]
  exact List.Pairwise.filter _ (sortByName_pairwise_ne hD)

theorem listVisits_recursive {le : String → String → Bool} {st : List MRecord}
    {pth : String} (hF : ∀ r ∈ st, r.type = MType.file) :
    listVisits le st pth true = listResult le st pth true := by
  rw [listVisits_eq_filter_recursive, listResult_eq_filtered_recursive]
  apply List.filter_eq_self.mpr
  intro e he
  obtain ⟨r, hr, hmap⟩ := mem_listFiltered he
  rcases e with x | d
  · have hx := mapEntry_file_eq hmap
    subst hx
    simp [MEntry.type, hF x hr]
  · rw [mapEntry_recursive] at hmap
    by_cases h : strStartsWith r.name pth = true
    · rw [if_pos h] at hmap
      simp at hmap
    · rw [if_neg h] at hmap
      exact absurd hmap (by simp)

theorem distinctNames_inj {st : List MRecord} (hD : DistinctNames st) {a b : MRecord}
    (ha : a ∈ st) (hb : b ∈ st) (hname : a.name = b.name) : a = b := by
  by_contra hne
  exact List.Pairwise.forall (fun x y hxy => Ne.symm hxy) hD ha hb hne hname

theorem foldl_deleteVisitor (quiet : Bool) :
    ∀ (vs : List MEntry) (st : List MRecord) (errs : List RemoveErr) (deleted : List String),
      (∀ e ∈ vs, e.type = MType.file) →
      (∀ e ∈ vs, ∃ r ∈ st, r.name = e.name) →
      vs.Pairwise (fun a b => a.name ≠ b.name) →
      vs.foldl (deleteVisitorStep quiet) (st, errs, deleted) =
        (st.filter (fun r => !((vs.map MEntry.name).contains r.name)), errs,
          deleted ++ vs.map MEntry.name) := by
  intro vs
  induction vs with
  | nil => intro st errs deleted _ _ _; simp
  | cons e rest ih =>
    intro st errs deleted hF hP hD
    have hEfile : e.type = MType.file := hF e (List.mem_cons_self _ _)
    obtain ⟨r, hr, hrn⟩ := hP e (List.mem_cons_self _ _)
    obtain ⟨hhead, htail⟩ := List.pairwise_cons.mp hD
    have hget : ∃ r', getRecord st e.name = some r' := by
      cases hg : getRecord st e.name with
      | some r' => exact ⟨r', rfl⟩
      | none =>
        rw [getRecord, List.find?_eq_none] at hg
        exact absurd (by simpa using hrn) (hg r hr)
    obtain ⟨r', hg⟩ := hget
    have hstep : deleteVisitorStep quiet (st, errs, deleted) e =
        (delRecord st e.name, errs, deleted ++ [e.name]) := by
      simp only [deleteVisitorStep, hg]
      rw [if_neg (by simp [hEfile])]
    rw [List.foldl_cons, hstep]
    rw [ih (delRecord st e.name) errs (deleted ++ [e.name])
      (fun e' he' => hF e' (List.mem_cons_of_mem _ he'))
      ?_ htail]
    · refine Prod.ext ?_ (Prod.ext rfl ?_)
      · show (delRecord st e.name).filter _ = st.filter _
        rw [delRecord, List.filter_filter]
        apply List.filter_congr
        intro x _
        show (!((rest.map MEntry.name).contains x.name) && (x.name != e.name)) =
          !((((e :: rest).map MEntry.name)).contains x.name)
        simp only [List.map_cons, List.contains_cons, Bool.not_or, bne]
        rw [Bool.and_comm]
      · show (deleted ++ [e.name]) ++ rest.map MEntry.name =
          deleted ++ (e :: rest).map MEntry.name
        simp
    · intro e' he'
      obtain ⟨x, hx, hxn⟩ := hP e' (List.mem_cons_of_mem _ he')
      refine ⟨x, ?_, hxn⟩
      rw [delRecord, List.mem_filter]
      refine ⟨hx, ?_⟩
      have : e'.name ≠ e.name := Ne.symm (hhead e' he')
      simp [bne, hxn, this]

/-- C7: recursive non-quiet `remove` on a state with at least one
matching file deletes exactly the records that `list(p, recursive=true)`
returned (the store keeps exactly the records whose names do not start
with `p`), a subsequent recursive `list(p)` on the new state returns
the empty list, and the deleted paths are returned — the single path
when exactly one file was deleted, the full list otherwise. -/
theorem c7_remove_deletes_enumerated (le : String → String → Bool) (st : List MRecord)
    (p : String) (hD : DistinctNames st) (hF : ∀ r ∈ st, r.type = MType.file)
    (hne : listResult le st p true ≠ []) :
    (removeModel le st p true false).2 =
        st.filter (fun r => !(strStartsWith r.name p)) ∧
      listResult le (removeModel le st p true false).2 p true = [] ∧
      (removeModel le st p true false).1 =
        (match (listResult le st p true).map MEntry.name with
         | [n] => RemoveOutcome.successSingle n
         | ns => RemoveOutcome.successMany ns) := by
  have hres : listResult le st p true =
      ((sortByName le st).filter (fun r => strStartsWith r.name p)).map MEntry.file :=
    listResult_recursive hD
  have hvis : listVisits le st p true =
      ((sortByName le st).filter (fun r => strStartsWith r.name p)).map MEntry.file := by
    rw [listVisits_recursive hF, hres]
  have hnames : (((sortByName le st).filter
        (fun r => strStartsWith r.name p)).map MEntry.file).map MEntry.name =
      ((sortByName le st).filter (fun r => strStartsWith r.name p)).map MRecord.name := by
    rw [List.map_map]
    rfl
  have hvF : ∀ e ∈ ((sortByName le st).filter
      (fun r => strStartsWith r.name p)).map MEntry.file, e.type = MType.file := by
    intro e he
    obtain ⟨r, hrf, rfl⟩ := List.mem_map.mp he
    have hrs : r ∈ st := (sortByName_perm le st).mem_iff.mp (List.mem_filter.mp hrf).1
    simpa [MEntry.type] using hF r hrs
  have hvP : ∀ e ∈ ((sortByName le st).filter
      (fun r => strStartsWith r.name p)).map MEntry.file, ∃ r ∈ st, r.name = e.name := by
    intro e he
    obtain ⟨r, hrf, rfl⟩ := List.mem_map.mp he
    exact ⟨r, (sortByName_perm le st).mem_iff.mp (List.mem_filter.mp hrf).1, rfl⟩
  have hvD : (((sortByName le st).filter
      (fun r => strStartsWith r.name p)).map MEntry.file).Pairwise
        (fun a b => a.name ≠ b.name) := by
    rw [List.pairwise_map]
    exact List.Pairwise.filter _ (sortByName_pairwise_ne hD)
  have hfold := foldl_deleteVisitor false
    (((sortByName le st).filter (fun r => strStartsWith r.name p)).map MEntry.file)
    st [] [] hvF hvP hvD
  have hcontains : ∀ x ∈ st,
      (!((((sortByName le st).filter (fun r => strStartsWith r.name p)).map
          MRecord.name).contains x.name)) = !(strStartsWith x.name p) := by
    intro x hx
    congr 1
    by_cases hsx : strStartsWith x.name p = true
    · rw [hsx]
      apply List.elem_iff.mpr
      exact List.mem_map.mpr
        ⟨x, List.mem_filter.mpr ⟨(sortByName_perm le st).mem_iff.mpr hx, hsx⟩, rfl⟩
    · rw [Bool.not_eq_true] at hsx
      rw [hsx]
      rw [← Bool.not_eq_true]
      intro hc
      obtain ⟨r', hr'f, hr'n⟩ := List.mem_map.mp (List.elem_iff.mp hc)
      obtain ⟨hr's, hr'sw⟩ := List.mem_filter.mp hr'f
      have : r' = x := distinctNames_inj hD
        ((sortByName_perm le st).mem_iff.mp hr's) hx hr'n
      rw [this] at hr'sw
      rw [hr'sw] at hsx
      exact Bool.noConfusion hsx
  have hfilter_eq : st.filter (fun r => !((((sortByName le st).filter
        (fun r => strStartsWith r.name p)).map MEntry.file).map
          MEntry.name).contains r.name) =
      st.filter (fun r => !(strStartsWith r.name p)) := by
    apply List.filter_congr
    intro x hx
    rw [hnames]
    exact hcontains x hx
  have hlen : ¬((listResult le st p true).length = 0) := by
    simpa [List.length_eq_zero] using hne
  have hrm : removeModel le st p true false =
      ((match ((sortByName le st).filter (fun r => strStartsWith r.name p)).map
          MRecord.name with
        | [n] => RemoveOutcome.successSingle n
        | ns => RemoveOutcome.successMany ns),
        st.filter (fun r => !(strStartsWith r.name p))) := by
    rw [removeModel, hvis, hfold]
    dsimp only
    rw [if_neg hlen]
    rw [hfilter_eq, hnames]
    cases hv : ((sortByName le st).filter (fun r => strStartsWith r.name p)).map
        MRecord.name with
    | nil =>
      exfalso
      apply hne
      rw [hres]
      rw [List.map_eq_nil] at hv
      rw [hv]
      rfl
    | cons n rest =>
      cases rest with
      | nil => rfl
      | cons m rest2 => rfl
  refine ⟨?_, ?_, ?_⟩
  · rw [hrm]
  · rw [hrm]
    have hD' : DistinctNames (st.filter (fun r => !(strStartsWith r.name p))) :=
      List.Pairwise.filter _ hD
    rw [listResult_recursive hD']
    rw [List.filter_eq_nil_iff.mpr ?_]
    · rfl
    · intro r hr
      have hrm2 : r ∈ st.filter (fun r => !(strStartsWith r.name p)) :=
        (sortByName_perm le _).mem_iff.mp hr
      have := (List.mem_filter.mp hrm2).2
      simpa using this
  · rw [hrm, hres, hnames]

/-- Witness for C7: store `["a/x", "a/y", "b"]`, recursive remove of
`"a"` deletes `a/x` and `a/y`, returns both paths, and leaves `b`. -/
theorem c7_witness :
    (removeModel demoLe
        [⟨"a/x", MType.file, [1], 1, 0⟩, ⟨"a/y", MType.file, [2], 1, 0⟩,
          ⟨"b", MType.file, [3], 1, 0⟩] "a" true false).2 =
      ([⟨"a/x", MType.file, [1], 1, 0⟩, ⟨"a/y", MType.file, [2], 1, 0⟩,
        ⟨"b", MType.file, [3], 1, 0⟩] : List MRecord).filter
          (fun r => !(strStartsWith r.name "a")) ∧
    listResult demoLe
        (removeModel demoLe
          [⟨"a/x", MType.file, [1], 1, 0⟩, ⟨"a/y", MType.file, [2], 1, 0⟩,
            ⟨"b", MType.file, [3], 1, 0⟩] "a" true false).2 "a" true = [] ∧
    (removeModel demoLe
        [⟨"a/x", MType.file, [1], 1, 0⟩, ⟨"a/y", MType.file, [2], 1, 0⟩,
          ⟨"b", MType.file, [3], 1, 0⟩] "a" true false).1 =
      RemoveOutcome.successMany ["a/x", "a/y"] := by
  have h := c7_remove_deletes_enumerated demoLe
    [⟨"a/x", MType.file, [1], 1, 0⟩, ⟨"a/y", MType.file, [2], 1, 0⟩,
      ⟨"b", MType.file, [3], 1, 0⟩] "a"
    (by simp [DistinctNames]) (by decide) (by decide)
  exact ⟨h.1, h.2.1, h.2.2⟩

end Mobiletto
